import Mathlib

/-!
Verification of the Recamán-sequence visualization program.

The program consists of three classes:
* `RecamanSequence` — incremental generator of the Recamán sequence,
  keeping a growing list of terms, a set of seen values, and a step counter;
* `ArcVisualizer` — computes gradient colors and semicircular arc point lists;
* `RecamanVisualization` — owns playback state (reveal index, paused flag)
  and the screen transform (scale, offsetX, offsetY).

Python integers are modelled as `Int`, Python floats as `ℚ` (exact rational
arithmetic) except for the trigonometric arc sampling, which is modelled
over `ℝ` with `Real.cos` / `Real.sin`.  Python sets are modelled as `Finset`.
-/

/-- State of the `RecamanSequence` class: the growing list of terms,
the set of seen values, and the current step counter. -/
structure RecamanSequence where
  sequence : List Int
  seen : Finset Int
  currentStep : Int
  deriving DecidableEq

/-- The `__init__` state: `sequence = [0]`, `seen = {0}`, `currentStep = 1`. -/
def RecamanSequence.init : RecamanSequence :=
  { sequence := [0], seen := {0}, currentStep := 1 }

/-- The value chosen by `generateNext`: `candidate = last - currentStep` if it
is strictly positive and unseen, otherwise `last + currentStep`.  This is the
local variable `nextValue` of the method body, hoisted into a function. -/
def RecamanSequence.nextValue (s : RecamanSequence) : Int :=
  let lastValue := s.sequence.getLastD 0
  let candidate := lastValue - s.currentStep
  if candidate > 0 ∧ candidate ∉ s.seen then candidate
  else lastValue + s.currentStep

/-- `generateNext`: appends the chosen value to the sequence and the seen set,
increments the step counter, and returns the new state with the value. -/
def RecamanSequence.generateNext (s : RecamanSequence) : RecamanSequence × Int :=
  ({ sequence := s.sequence ++ [s.nextValue],
     seen := insert s.nextValue s.seen,
     currentStep := s.currentStep + 1 }, s.nextValue)

theorem generateNext_length (s : RecamanSequence) :
    s.generateNext.1.sequence.length = s.sequence.length + 1 := by
  simp [RecamanSequence.generateNext]

/-- One `generateNext` step viewed as a state transformer. -/
def recamanStep (s : RecamanSequence) : RecamanSequence := s.generateNext.1

/-- `generateTerms(numTerms)`: the `while len(self.sequence) < numTerms` loop.
Each `generateNext` call appends exactly one term, so the loop body runs
exactly `numTerms - len(self.sequence)` times; the loop is modelled as that
iteration, and the loop-shaped unfolding is proved as `generateTerms_eq`. -/
def RecamanSequence.generateTerms (s : RecamanSequence) (numTerms : Nat) : RecamanSequence :=
  recamanStep^[numTerms - s.sequence.length] s

/-- The while-loop unfolding of `generateTerms`. -/
theorem generateTerms_eq (s : RecamanSequence) (numTerms : Nat) :
    s.generateTerms numTerms =
      if s.sequence.length < numTerms then s.generateNext.1.generateTerms numTerms
      else s := by
  by_cases h : s.sequence.length < numTerms
  · rw [if_pos h]
    unfold RecamanSequence.generateTerms
    have h1 : numTerms - s.sequence.length =
        (numTerms - s.generateNext.1.sequence.length) + 1 := by
      rw [generateNext_length]
      omega
    rw [h1, Function.iterate_succ_apply]
    rfl
  · rw [if_neg h]
    unfold RecamanSequence.generateTerms
    have h1 : numTerms - s.sequence.length = 0 := by omega
    rw [h1, Function.iterate_zero_apply]

/-- `getMaxValue`: `max(self.sequence) if self.sequence else 0`. -/
def RecamanSequence.getMaxValue (s : RecamanSequence) : Int :=
  match s.sequence with
  | [] => 0
  | x :: xs => xs.foldl max x

/-- The generator state after `k` calls of `generateNext` from the initial state. -/
def recamanSteps (k : Nat) : RecamanSequence := recamanStep^[k] RecamanSequence.init

/-- The list of terms after `generateTerms m` on a fresh generator
(the way `RecamanVisualization.__init__` builds the sequence). -/
def recamanUpTo (m : Nat) : List Int := (RecamanSequence.init.generateTerms m).sequence

theorem generateTerms_add (s : RecamanSequence) (k : Nat) :
    s.generateTerms (s.sequence.length + k) = recamanStep^[k] s := by
  unfold RecamanSequence.generateTerms
  rw [Nat.add_sub_cancel_left]

theorem generateTerms_init (k : Nat) :
    RecamanSequence.init.generateTerms (k + 1) = recamanSteps k := by
  have h := generateTerms_add RecamanSequence.init k
  have h1 : RecamanSequence.init.sequence.length = 1 := rfl
  rw [h1, Nat.add_comm 1 k] at h
  exact h

theorem recamanSteps_length (k : Nat) :
    (recamanSteps k).sequence.length = k + 1 := by
  induction k with
  | zero => rfl
  | succ k ih =>
      unfold recamanSteps at ih ⊢
      rw [Function.iterate_succ_apply']
      show (recamanStep^[k] RecamanSequence.init).generateNext.1.sequence.length = k + 1 + 1
      rw [generateNext_length, ih]

theorem getLastD_mem : ∀ (l : List Int) (d : Int), l ≠ [] → l.getLastD d ∈ l := by
  intro l
  induction l with
  | nil => intro d h; exact absurd rfl h
  | cons a t ih =>
      intro d _
      cases ht : t with
      | nil => simp [ht]
      | cons b u =>
          rw [List.getLastD_cons]
          rw [ht] at ih
          exact List.mem_cons_of_mem a (ih a (by simp))

theorem getLastD_eq_getD : ∀ (l : List Int) (d d' : Int), l ≠ [] →
    l.getLastD d = l.getD (l.length - 1) d' := by
  intro l
  induction l with
  | nil => intro d d' h; exact absurd rfl h
  | cons a t ih =>
      intro d d' _
      cases t with
      | nil => simp
      | cons b u =>
          rw [List.getLastD_cons]
          have h1 := ih a d' (by simp)
          have h2 : (a :: b :: u).length - 1 = (b :: u).length - 1 + 1 := by
            simp
          rw [h2, List.getD_cons_succ]
          exact h1

/-- The reachability invariant of the generator state: the step counter equals
the number of terms, the seen set is exactly the set of terms, the first term
is `0`, and every later term is strictly positive. -/
def RecamanSequence.Good (s : RecamanSequence) : Prop :=
  s.currentStep = (s.sequence.length : Int) ∧
  s.seen = s.sequence.toFinset ∧
  s.sequence.head? = some 0 ∧
  ∀ v ∈ s.sequence.tail, 0 < v

theorem good_init : RecamanSequence.init.Good := by
  refine ⟨rfl, by decide, rfl, ?_⟩
  intro v hv
  simp [RecamanSequence.init] at hv

theorem good_cons (s : RecamanSequence) (h : s.Good) :
    ∃ t, s.sequence = 0 :: t := by
  obtain ⟨ys, hy⟩ := List.head?_eq_some_iff.mp h.2.2.1
  exact ⟨ys, hy⟩

theorem nextValue_pos (s : RecamanSequence) (h : s.Good) : 0 < s.nextValue := by
  obtain ⟨hstep, hseen, hhead, htail⟩ := h
  obtain ⟨t, ht⟩ := good_cons s ⟨hstep, hseen, hhead, htail⟩
  have hlast : 0 ≤ s.sequence.getLastD 0 := by
    rw [ht]
    have hm : (0 :: t).getLastD 0 ∈ 0 :: t := getLastD_mem _ _ (by simp)
    rcases List.mem_cons.mp hm with h0 | hmem
    · omega
    · exact le_of_lt (htail _ (by rw [ht]; simpa using hmem))
  have hpos : 0 < s.currentStep := by
    rw [hstep, ht]
    simp
  show 0 < if s.sequence.getLastD 0 - s.currentStep > 0 ∧
      s.sequence.getLastD 0 - s.currentStep ∉ s.seen
    then s.sequence.getLastD 0 - s.currentStep
    else s.sequence.getLastD 0 + s.currentStep
  split
  · rename_i hc; exact hc.1
  · omega

theorem good_step (s : RecamanSequence) (h : s.Good) : (recamanStep s).Good := by
  have hv := nextValue_pos s h
  obtain ⟨hstep, hseen, hhead, htail⟩ := h
  obtain ⟨t, ht⟩ := good_cons s ⟨hstep, hseen, hhead, htail⟩
  refine ⟨?_, ?_, ?_, ?_⟩
  · show s.currentStep + 1 = ((s.sequence ++ [s.nextValue]).length : Int)
    rw [hstep]
    simp
  · show insert s.nextValue s.seen = (s.sequence ++ [s.nextValue]).toFinset
    rw [hseen, List.toFinset_append]
    ext x
    simp [or_comm]
  · show (s.sequence ++ [s.nextValue]).head? = some 0
    rw [ht]
    simp
  · show ∀ v ∈ (s.sequence ++ [s.nextValue]).tail, 0 < v
    rw [ht]
    intro v hv'
    simp only [List.cons_append, List.tail_cons, List.mem_append,
      List.mem_singleton] at hv'
    rcases hv' with hmem | rfl
    · exact htail v (by rw [ht]; exact hmem)
    · exact hv

theorem good_steps (k : Nat) : (recamanSteps k).Good := by
  induction k with
  | zero => exact good_init
  | succ k ih =>
      unfold recamanSteps at ih ⊢
      rw [Function.iterate_succ_apply']
      exact good_step _ ih

/-- The configuration values the core logic reads (loaded from `config.json`;
only the fields the verified components use are modelled). -/
structure Config where
  windowWidth : Int
  windowHeight : Int
  maxTerms : Nat
  yPosition : ℚ
  autoScalingEnabled : Bool
  padding : ℚ
  colorStart : Int × Int × Int
  colorEnd : Int × Int × Int
  segments : Nat
  strokeWeight : Int

/-- Python `int()` applied to a rational: truncation toward zero. -/
def pyInt (q : ℚ) : Int := if q < 0 then ⌈q⌉ else ⌊q⌋

/-- `ArcVisualizer.interpolateColor`: linear per-channel interpolation between
`colorStart` and `colorEnd` with `ratio = index / max(totalArcs - 1, 1)`,
each channel truncated by `int()`. -/
def ArcVisualizer.interpolateColor (cfg : Config) (index totalArcs : Int) :
    Int × Int × Int :=
  let ratio : ℚ := (index : ℚ) / ((max (totalArcs - 1) 1 : Int) : ℚ)
  let colorStart := cfg.colorStart
  let colorEnd := cfg.colorEnd
  let r := pyInt ((colorStart.1 : ℚ) + ((colorEnd.1 : ℚ) - (colorStart.1 : ℚ)) * ratio)
  let g := pyInt ((colorStart.2.1 : ℚ) + ((colorEnd.2.1 : ℚ) - (colorStart.2.1 : ℚ)) * ratio)
  let b := pyInt ((colorStart.2.2 : ℚ) + ((colorEnd.2.2 : ℚ) - (colorStart.2.2 : ℚ)) * ratio)
  (r, g, b)

/-- A `pygame.draw.lines` invocation recorded abstractly: color, closed flag,
point list and stroke width. -/
structure DrawCall where
  color : Int × Int × Int
  closed : Bool
  points : List (ℝ × ℝ)
  width : Int

/-- The point list built by `ArcVisualizer.drawArc`: empty when the two values
are equal, otherwise `segments + 1` samples of the semicircle, with the angle
negated for odd `arcIndex`. -/
noncomputable def ArcVisualizer.arcPoints (cfg : Config)
    (startVal endVal arcIndex : Int) (scale offsetX offsetY : ℝ) :
    List (ℝ × ℝ) :=
  if startVal = endVal then []
  else
    let center : ℝ := ((startVal : ℝ) + (endVal : ℝ)) / 2
    let radius : ℝ := |(endVal : ℝ) - (startVal : ℝ)| / 2
    let direction : Int := if arcIndex % 2 = 0 then 1 else -1
    let screenCenterX := offsetX + center * scale
    let screenCenterY := offsetY
    let screenRadius := radius * scale
    (List.range (cfg.segments + 1)).map fun (i : Nat) =>
      let angle0 : ℝ := Real.pi * (i : ℝ) / (cfg.segments : ℝ)
      let angle : ℝ := if direction = -1 then -angle0 else angle0
      (screenCenterX + screenRadius * Real.cos angle,
       screenCenterY + screenRadius * Real.sin angle)

/-- `ArcVisualizer.drawArc`: returns the draw call it would issue, or `none`
when it returns early (equal endpoints) or has too few points. -/
noncomputable def ArcVisualizer.drawArc (cfg : Config)
    (startVal endVal arcIndex totalArcs : Int) (scale offsetX offsetY : ℝ) :
    Option DrawCall :=
  if startVal = endVal then none
  else
    let points := ArcVisualizer.arcPoints cfg startVal endVal arcIndex scale offsetX offsetY
    if 1 < points.length then
      some { color := ArcVisualizer.interpolateColor cfg arcIndex totalArcs,
             closed := false, points := points, width := cfg.strokeWeight }
    else none

/-- State of the `RecamanVisualization` class (window and clock omitted). -/
structure RecamanVisualization where
  config : Config
  width : Int
  height : Int
  sequence : RecamanSequence
  currentArc : Int
  maxTerms : Nat
  running : Bool
  paused : Bool
  scale : ℚ
  offsetX : ℚ
  offsetY : ℚ

/-- `RecamanVisualization.calculateScaling`: when auto-scaling is enabled and
the maximum value is positive, fit the sequence into the viewport width.
The method's local variables `maxValue` and `padding` are inlined. -/
def RecamanVisualization.calculateScaling (st : RecamanVisualization) :
    RecamanVisualization :=
  if ¬ st.config.autoScalingEnabled then st
  else if st.sequence.getMaxValue > 0 then
    { st with
      scale := ((st.width : ℚ) - 2 * st.config.padding) / (st.sequence.getMaxValue : ℚ),
      offsetX := st.config.padding }
  else st

/-- `RecamanVisualization.__init__`: build the sequence to `maxTerms` terms,
set the default transform, then run `calculateScaling`. -/
def RecamanVisualization.build (cfg : Config) : RecamanVisualization :=
  RecamanVisualization.calculateScaling
    { config := cfg
      width := cfg.windowWidth
      height := cfg.windowHeight
      sequence := RecamanSequence.init.generateTerms cfg.maxTerms
      currentArc := 0
      maxTerms := cfg.maxTerms
      running := true
      paused := false
      scale := 1
      offsetX := 0
      offsetY := (cfg.windowHeight : ℚ) * cfg.yPosition }

/-- `RecamanVisualization.reset`: rewind the reveal index only. -/
def RecamanVisualization.reset (st : RecamanVisualization) : RecamanVisualization :=
  { st with currentArc := 0 }

/-- `RecamanVisualization.update`: one tick; when not paused and the reveal
index is below the number of arcs, advance it by one. -/
def RecamanVisualization.update (st : RecamanVisualization) : RecamanVisualization :=
  if ¬ st.paused ∧ st.currentArc < (st.sequence.sequence.length : Int) - 1 then
    { st with currentArc := st.currentArc + 1 }
  else st

/-- The number of arcs, `len(self.sequence.sequence) - 1`, as used by
`update`, `draw` and `drawInstructions`. -/
def RecamanVisualization.totalArcs (st : RecamanVisualization) : Int :=
  (st.sequence.sequence.length : Int) - 1

theorem generateTerms_length (s : RecamanSequence) (n : Nat) :
    (s.generateTerms n).sequence.length = max n s.sequence.length := by
  rw [generateTerms_eq]
  split
  · rename_i h
    rw [generateTerms_length s.generateNext.1 n, generateNext_length]
    omega
  · rename_i h
    omega
termination_by n - s.sequence.length
decreasing_by
  simp only [generateNext_length]
  omega

/-- Claim C9: for every starting state and every `n`, `generateTerms n`
terminates (witnessed by the accepted recursive definition) and leaves the
sequence with exactly `max n (previous length)` terms; in particular it is a
no-op when the sequence already holds at least `n` terms. -/
theorem generateTerms_spec (s : RecamanSequence) (n : Nat) :
    (s.generateTerms n).sequence.length = max n s.sequence.length ∧
    (n ≤ s.sequence.length → s.generateTerms n = s) := by
  constructor
  · exact generateTerms_length s n
  · intro h
    rw [generateTerms_eq, if_neg (by omega)]

theorem generateTerms_spec_witness :
    (RecamanSequence.init.generateTerms 5).sequence.length =
      max 5 RecamanSequence.init.sequence.length ∧
    (1 ≤ RecamanSequence.init.sequence.length ∧
      RecamanSequence.init.generateTerms 1 = RecamanSequence.init) :=
  ⟨(generateTerms_spec RecamanSequence.init 5).1,
   by decide,
   (generateTerms_spec RecamanSequence.init 1).2 (by decide)⟩

/-- Claim C2 (counterexample): generating 10 terms from the initial state does
NOT yield the list `[0,1,3,2,6,5,10,9,15,8]` stated by the spec. -/
theorem golden_values_mismatch :
    recamanUpTo 10 ≠ [0, 1, 3, 2, 6, 5, 10, 9, 15, 8] := by
  unfold recamanUpTo
  rw [generateTerms_init 9]
  decide

/-- Claim C2 (amended): generating the sequence from the initial state
(seed `[0]`, step counter 1) to 10 terms yields exactly
`[0, 1, 3, 6, 2, 7, 13, 20, 12, 21]`. -/
theorem first_ten_terms :
    recamanUpTo 10 = [0, 1, 3, 6, 2, 7, 13, 20, 12, 21] := by
  unfold recamanUpTo
  rw [generateTerms_init 9]
  decide

/-- Claim C7 (counterexample): after the sequence has been generated to 25
terms, the seen set holds only 24 members (the value 42 is produced twice, at
indices 20 and 24), so its size does not equal the number of terms. -/
theorem seen_card_mismatch :
    ¬ ((RecamanSequence.init.generateTerms 25).seen.card =
        (RecamanSequence.init.generateTerms 25).sequence.length) := by
  rw [generateTerms_init 24]
  decide

/-- Claim C7 (amended): the seen set is append-only — it never loses a member
across a call of `generateNext` — and after every call its size equals the
number of DISTINCT terms of the sequence, hence never exceeds the number of
terms. -/
theorem seen_append_only (s : RecamanSequence) (k : Nat) :
    s.seen ⊆ s.generateNext.1.seen ∧
    (recamanSteps k).seen.card = (recamanSteps k).sequence.dedup.length ∧
    (recamanSteps k).seen.card ≤ (recamanSteps k).sequence.length := by
  have hg := good_steps k
  refine ⟨?_, ?_, ?_⟩
  · intro x hx
    exact Finset.mem_insert_of_mem hx
  · rw [hg.2.1, List.card_toFinset]
  · rw [hg.2.1, List.card_toFinset]
    exact (List.dedup_sublist _).length_le

/-- Claim C8: `reset` sets the reveal index to 0 and changes nothing else —
the generated sequence, the seen set, the step counter, the paused flag and
the screen transform are all untouched. -/
theorem reset_frame_spec (st : RecamanVisualization) :
    st.reset.currentArc = 0 ∧
    st.reset.sequence.sequence = st.sequence.sequence ∧
    st.reset.sequence.seen = st.sequence.seen ∧
    st.reset.sequence.currentStep = st.sequence.currentStep ∧
    st.reset.paused = st.paused ∧
    st.reset.scale = st.scale ∧
    st.reset.offsetX = st.offsetX ∧
    st.reset.offsetY = st.offsetY ∧
    st.reset.running = st.running ∧
    st.reset.config = st.config :=
  ⟨rfl, rfl, rfl, rfl, rfl, rfl, rfl, rfl, rfl, rfl⟩

theorem le_foldl_max (l : List Int) : ∀ x : Int, x ≤ l.foldl max x := by
  induction l with
  | nil => intro x; simp
  | cons y ys ih =>
      intro x
      rw [List.foldl_cons]
      exact le_trans (le_max_left x y) (ih (max x y))

theorem mem_le_foldl_max (l : List Int) : ∀ (x z : Int), z ∈ l → z ≤ l.foldl max x := by
  induction l with
  | nil => intro x z h; simp at h
  | cons y ys ih =>
      intro x z h
      rw [List.foldl_cons]
      rcases List.mem_cons.mp h with rfl | h2
      · exact le_trans (le_max_right x z) (le_foldl_max ys (max x z))
      · exact ih (max x y) z h2

theorem getMaxValue_cons (s : RecamanSequence) (x : Int) (xs : List Int)
    (h : s.sequence = x :: xs) : s.getMaxValue = xs.foldl max x := by
  unfold RecamanSequence.getMaxValue
  rw [h]

/-- Claim C10: every term of the generated sequence is non-negative, every
term at index ≥ 1 is strictly positive, `getMaxValue` is always ≥ 0, and it
is > 0 as soon as the sequence holds at least two terms. -/
theorem sequence_positivity_spec (k : Nat) :
    (∀ v ∈ (recamanSteps k).sequence, 0 ≤ v) ∧
    (∀ i, 1 ≤ i → i < (recamanSteps k).sequence.length →
      0 < (recamanSteps k).sequence.getD i 0) ∧
    0 ≤ (recamanSteps k).getMaxValue ∧
    (2 ≤ (recamanSteps k).sequence.length → 0 < (recamanSteps k).getMaxValue) := by
  have hg := good_steps k
  obtain ⟨t, ht⟩ := good_cons _ hg
  have htail : ∀ v ∈ t, 0 < v := by
    intro v hv
    exact hg.2.2.2 v (by rw [ht]; simpa using hv)
  refine ⟨?_, ?_, ?_, ?_⟩
  · intro v hv
    rw [ht] at hv
    rcases List.mem_cons.mp hv with rfl | hmem
    · exact le_refl 0
    · exact le_of_lt (htail v hmem)
  · intro i h1 hi
    obtain ⟨j, rfl⟩ : ∃ j, i = j + 1 := ⟨i - 1, by omega⟩
    rw [ht] at hi ⊢
    rw [List.getD_cons_succ]
    have hj : j < t.length := by
      simpa using hi
    rw [List.getD_eq_getElem t 0 hj]
    exact htail _ (List.getElem_mem hj)
  · rw [getMaxValue_cons _ 0 t ht]
    exact le_foldl_max t 0
  · intro hlen
    rw [getMaxValue_cons _ 0 t ht]
    rw [ht] at hlen
    cases t with
    | nil => simp at hlen
    | cons w t' =>
        have hw : 0 < w := htail w (List.mem_cons_self w t')
        exact lt_of_lt_of_le hw (mem_le_foldl_max _ 0 w (List.mem_cons_self w t'))

theorem sequence_positivity_witness :
    0 ≤ (recamanSteps 2).getMaxValue ∧
    0 < (recamanSteps 2).getMaxValue ∧
    0 < (recamanSteps 2).sequence.getD 1 0 :=
  ⟨(sequence_positivity_spec 2).2.2.1,
   (sequence_positivity_spec 2).2.2.2 (by decide),
   (sequence_positivity_spec 2).2.1 1 (by decide) (by decide)⟩

theorem update_eq (st : RecamanVisualization) :
    st.update =
      if ¬ st.paused ∧ st.currentArc < (st.sequence.sequence.length : Int) - 1 then
        { st with currentArc := st.currentArc + 1 }
      else st := rfl

theorem update_paused (st : RecamanVisualization) : st.update.paused = st.paused := by
  unfold RecamanVisualization.update
  split <;> rfl

theorem update_sequence (st : RecamanVisualization) :
    st.update.sequence = st.sequence := by
  unfold RecamanVisualization.update
  split <;> rfl

theorem iterate_update_paused (st : RecamanVisualization) (k : Nat) :
    (RecamanVisualization.update^[k] st).paused = st.paused := by
  induction k with
  | zero => rfl
  | succ k ih => rw [Function.iterate_succ_apply', update_paused, ih]

theorem iterate_update_sequence (st : RecamanVisualization) (k : Nat) :
    (RecamanVisualization.update^[k] st).sequence = st.sequence := by
  induction k with
  | zero => rfl
  | succ k ih => rw [Function.iterate_succ_apply', update_sequence, ih]

theorem update_iterate_currentArc (st : RecamanVisualization) (N : Nat)
    (hp : st.paused = false) (h0 : st.currentArc = 0)
    (hlen : 1 ≤ st.sequence.sequence.length) :
    (RecamanVisualization.update^[N] st).currentArc = min (N : Int) st.totalArcs := by
  have hT : 1 ≤ (st.sequence.sequence.length : Int) := by exact_mod_cast hlen
  induction N with
  | zero =>
      rw [Function.iterate_zero_apply, h0]
      unfold RecamanVisualization.totalArcs
      omega
  | succ k ih =>
      rw [Function.iterate_succ_apply']
      have hp' : (RecamanVisualization.update^[k] st).paused = false := by
        rw [iterate_update_paused]
        exact hp
      have hseq : (RecamanVisualization.update^[k] st).sequence = st.sequence :=
        iterate_update_sequence st k
      unfold RecamanVisualization.totalArcs at ih ⊢
      rw [update_eq (RecamanVisualization.update^[k] st), hp', hseq]
      split
      · rename_i hc
        show (RecamanVisualization.update^[k] st).currentArc + 1 =
          min ((k + 1 : Nat) : Int) ((st.sequence.sequence.length : Int) - 1)
        have hc2 := hc.2
        push_cast at ih ⊢
        omega
      · rename_i hc
        show (RecamanVisualization.update^[k] st).currentArc =
          min ((k + 1 : Nat) : Int) ((st.sequence.sequence.length : Int) - 1)
        have hc2 : ¬ ((RecamanVisualization.update^[k] st).currentArc <
            (st.sequence.sequence.length : Int) - 1) := by
          intro hlt
          exact hc ⟨by simp, hlt⟩
        push_cast at ih ⊢
        omega

/-- Claim C3: from `currentArc = 0` unpaused, `N` ticks advance the reveal
index to `min N totalArcs`; a tick while paused changes nothing; and ticks
never push the index beyond `totalArcs` (the number of terms minus one). -/
theorem animation_tick_spec (st : RecamanVisualization) (N : Nat) :
    (st.paused = false → st.currentArc = 0 → 1 ≤ st.sequence.sequence.length →
      (RecamanVisualization.update^[N] st).currentArc = min (N : Int) st.totalArcs) ∧
    (st.paused = true → st.update = st) ∧
    (st.currentArc ≤ st.totalArcs →
      (RecamanVisualization.update^[N] st).currentArc ≤ st.totalArcs) := by
  refine ⟨fun hp h0 hl => update_iterate_currentArc st N hp h0 hl, ?_, ?_⟩
  · intro hp
    rw [update_eq st, if_neg]
    intro hcond
    exact hcond.1 (by simp [hp])
  · intro hb
    induction N with
    | zero => simpa using hb
    | succ k ih =>
        rw [Function.iterate_succ_apply']
        have hseq : (RecamanVisualization.update^[k] st).sequence = st.sequence :=
          iterate_update_sequence st k
        rw [update_eq (RecamanVisualization.update^[k] st)]
        split
        · rename_i hc
          show (RecamanVisualization.update^[k] st).currentArc + 1 ≤ st.totalArcs
          have hc2 := hc.2
          rw [hseq] at hc2
          unfold RecamanVisualization.totalArcs
          omega
        · exact ih

/-- A concrete configuration used to instantiate proved theorems. -/
def sampleConfig (m : Nat) : Config :=
  { windowWidth := 1200, windowHeight := 800, maxTerms := m, yPosition := 1/2,
    autoScalingEnabled := true, padding := 50, colorStart := (50, 100, 150),
    colorEnd := (255, 80, 150), segments := 2, strokeWeight := 2 }

theorem animation_tick_witness :
    ((RecamanVisualization.update^[7] (RecamanVisualization.build (sampleConfig 5))).currentArc =
      min (7 : Int) (RecamanVisualization.build (sampleConfig 5)).totalArcs) ∧
    ({ RecamanVisualization.build (sampleConfig 5) with paused := true }.update =
      { RecamanVisualization.build (sampleConfig 5) with paused := true }) ∧
    ((RecamanVisualization.update^[7] (RecamanVisualization.build (sampleConfig 5))).currentArc ≤
      (RecamanVisualization.build (sampleConfig 5)).totalArcs) :=
  ⟨(animation_tick_spec (RecamanVisualization.build (sampleConfig 5)) 7).1
      (by decide) (by decide) (by decide),
   (animation_tick_spec
      { RecamanVisualization.build (sampleConfig 5) with paused := true } 0).2.1 rfl,
   (animation_tick_spec (RecamanVisualization.build (sampleConfig 5)) 7).2.2 (by decide)⟩

/-- Claim C4: for the transform computed at startup — if the maximum sequence
value is ≤ 0 the defaults `scale = 1`, `offsetX = 0` are kept (no division by
zero); if auto-scaling is enabled and the maximum is positive then
`scale = (width - 2*padding)/maxValue` and `offsetX = padding`; and in all
cases `offsetY = height * yFraction`. -/
theorem transform_spec (cfg : Config) :
    ((RecamanVisualization.build cfg).sequence.getMaxValue ≤ 0 →
      (RecamanVisualization.build cfg).scale = 1 ∧
      (RecamanVisualization.build cfg).offsetX = 0) ∧
    (cfg.autoScalingEnabled = true →
      0 < (RecamanVisualization.build cfg).sequence.getMaxValue →
      (RecamanVisualization.build cfg).scale =
        ((cfg.windowWidth : ℚ) - 2 * cfg.padding) /
          ((RecamanVisualization.build cfg).sequence.getMaxValue : ℚ) ∧
      (RecamanVisualization.build cfg).offsetX = cfg.padding) ∧
    (RecamanVisualization.build cfg).offsetY =
      (cfg.windowHeight : ℚ) * cfg.yPosition := by
  unfold RecamanVisualization.build RecamanVisualization.calculateScaling
  split
  · rename_i h
    exact ⟨fun _ => ⟨rfl, rfl⟩, fun he _ => absurd he (by simpa using h), rfl⟩
  · rename_i h
    split
    · rename_i hmx
      refine ⟨fun hle => absurd hmx (by simpa using hle), fun _ _ => ⟨rfl, rfl⟩, rfl⟩
    · rename_i hmx
      refine ⟨fun _ => ⟨rfl, rfl⟩, fun _ h0 => absurd h0 (by simpa using hmx), rfl⟩

theorem transform_spec_witness :
    ((RecamanVisualization.build (sampleConfig 10)).scale =
        (((sampleConfig 10).windowWidth : ℚ) - 2 * (sampleConfig 10).padding) /
          ((RecamanVisualization.build (sampleConfig 10)).sequence.getMaxValue : ℚ) ∧
      (RecamanVisualization.build (sampleConfig 10)).offsetX = (sampleConfig 10).padding) ∧
    ((RecamanVisualization.build (sampleConfig 1)).scale = 1 ∧
      (RecamanVisualization.build (sampleConfig 1)).offsetX = 0) :=
  ⟨(transform_spec (sampleConfig 10)).2.1 rfl (by decide),
   (transform_spec (sampleConfig 1)).1 (by decide)⟩

theorem pyInt_intCast (c : Int) : pyInt (c : ℚ) = c := by
  unfold pyInt
  split
  · exact Int.ceil_intCast c
  · exact Int.floor_intCast c

theorem pyInt_mono {x y : ℚ} (h : x ≤ y) : pyInt x ≤ pyInt y := by
  unfold pyInt
  by_cases hx : x < 0 <;> by_cases hy : y < 0
  · rw [if_pos hx, if_pos hy]
    exact Int.ceil_le_ceil h
  · rw [if_pos hx, if_neg hy]
    have h1 : (⌈x⌉ : Int) ≤ 0 := Int.ceil_le.mpr (by exact_mod_cast le_of_lt hx)
    have h2 : (0 : Int) ≤ ⌊y⌋ := Int.le_floor.mpr (by exact_mod_cast not_lt.mp hy)
    omega
  · exact absurd (lt_of_le_of_lt h hy) hx
  · rw [if_neg hx, if_neg hy]
    exact Int.floor_le_floor h

theorem channel_mono (c0 c1 : Int) {r r' : ℚ} (hr : r ≤ r') (hc : c0 ≤ c1) :
    pyInt ((c0 : ℚ) + ((c1 : ℚ) - (c0 : ℚ)) * r) ≤
      pyInt ((c0 : ℚ) + ((c1 : ℚ) - (c0 : ℚ)) * r') := by
  apply pyInt_mono
  have hd : (0 : ℚ) ≤ (c1 : ℚ) - (c0 : ℚ) := by
    rw [sub_nonneg]
    exact_mod_cast hc
  exact add_le_add_left (mul_le_mul_of_nonneg_left hr hd) _

theorem channel_anti (c0 c1 : Int) {r r' : ℚ} (hr : r ≤ r') (hc : c1 ≤ c0) :
    pyInt ((c0 : ℚ) + ((c1 : ℚ) - (c0 : ℚ)) * r') ≤
      pyInt ((c0 : ℚ) + ((c1 : ℚ) - (c0 : ℚ)) * r) := by
  apply pyInt_mono
  have hd : (c1 : ℚ) - (c0 : ℚ) ≤ 0 := by
    rw [sub_nonpos]
    exact_mod_cast hc
  exact add_le_add_left (mul_le_mul_of_nonpos_left hr hd) _

theorem interpolateColor_eval (cfg : Config) (index totalArcs : Int) :
    ArcVisualizer.interpolateColor cfg index totalArcs =
      (pyInt ((cfg.colorStart.1 : ℚ) + ((cfg.colorEnd.1 : ℚ) - (cfg.colorStart.1 : ℚ)) *
          ((index : ℚ) / ((max (totalArcs - 1) 1 : Int) : ℚ))),
       pyInt ((cfg.colorStart.2.1 : ℚ) + ((cfg.colorEnd.2.1 : ℚ) - (cfg.colorStart.2.1 : ℚ)) *
          ((index : ℚ) / ((max (totalArcs - 1) 1 : Int) : ℚ))),
       pyInt ((cfg.colorStart.2.2 : ℚ) + ((cfg.colorEnd.2.2 : ℚ) - (cfg.colorStart.2.2 : ℚ)) *
          ((index : ℚ) / ((max (totalArcs - 1) 1 : Int) : ℚ)))) := rfl

theorem interpolateColor_zero (cfg : Config) (N : Int) :
    ArcVisualizer.interpolateColor cfg 0 N = cfg.colorStart := by
  have h0 : ((0 : Int) : ℚ) = 0 := by norm_num
  rw [interpolateColor_eval, h0, zero_div]
  simp [pyInt_intCast]

/-- Claim C6: `interpolateColor 0 N = colorStart` for `N > 0`;
`interpolateColor (N-1) N = colorEnd` for `N > 1`; each RGB channel is
monotone in the index (in the direction given by the endpoint colors); and
the clamped denominator `max (N-1) 1` is positive even for a single arc,
where the start color is returned. -/
theorem interpolate_color_spec (cfg : Config) (N : Int) :
    (0 < N → ArcVisualizer.interpolateColor cfg 0 N = cfg.colorStart) ∧
    (1 < N → ArcVisualizer.interpolateColor cfg (N - 1) N = cfg.colorEnd) ∧
    (∀ i j : Int, 0 ≤ i → i ≤ j → j ≤ N - 1 →
      ((cfg.colorStart.1 ≤ cfg.colorEnd.1 →
          (ArcVisualizer.interpolateColor cfg i N).1 ≤
            (ArcVisualizer.interpolateColor cfg j N).1) ∧
       (cfg.colorEnd.1 ≤ cfg.colorStart.1 →
          (ArcVisualizer.interpolateColor cfg j N).1 ≤
            (ArcVisualizer.interpolateColor cfg i N).1) ∧
       (cfg.colorStart.2.1 ≤ cfg.colorEnd.2.1 →
          (ArcVisualizer.interpolateColor cfg i N).2.1 ≤
            (ArcVisualizer.interpolateColor cfg j N).2.1) ∧
       (cfg.colorEnd.2.1 ≤ cfg.colorStart.2.1 →
          (ArcVisualizer.interpolateColor cfg j N).2.1 ≤
            (ArcVisualizer.interpolateColor cfg i N).2.1) ∧
       (cfg.colorStart.2.2 ≤ cfg.colorEnd.2.2 →
          (ArcVisualizer.interpolateColor cfg i N).2.2 ≤
            (ArcVisualizer.interpolateColor cfg j N).2.2) ∧
       (cfg.colorEnd.2.2 ≤ cfg.colorStart.2.2 →
          (ArcVisualizer.interpolateColor cfg j N).2.2 ≤
            (ArcVisualizer.interpolateColor cfg i N).2.2))) ∧
    ((0 : Int) < max (N - 1) 1 ∧
      ArcVisualizer.interpolateColor cfg 0 1 = cfg.colorStart) := by
  refine ⟨fun _ => interpolateColor_zero cfg N, ?_, ?_, by omega,
    interpolateColor_zero cfg 1⟩
  · intro hN
    have hD : max (N - 1) 1 = N - 1 := max_eq_left (by omega)
    have hne : ((N - 1 : Int) : ℚ) ≠ 0 := by
      rw [Int.cast_ne_zero]
      omega
    rw [interpolateColor_eval, hD, div_self hne]
    have key : ∀ a b : ℚ, a + (b - a) * 1 = b := fun a b => by ring
    rw [key, key, key]
    simp [pyInt_intCast]
  · intro i j hi hij hjN
    have hDpos : (0 : ℚ) < ((max (N - 1) 1 : Int) : ℚ) := by
      exact_mod_cast (by omega : (0 : Int) < max (N - 1) 1)
    have hr : (i : ℚ) / ((max (N - 1) 1 : Int) : ℚ) ≤
        (j : ℚ) / ((max (N - 1) 1 : Int) : ℚ) := by
      apply div_le_div_of_nonneg_right ?_ (le_of_lt hDpos)
      exact_mod_cast hij
    simp only [interpolateColor_eval]
    exact ⟨fun hc => channel_mono _ _ hr hc, fun hc => channel_anti _ _ hr hc,
      fun hc => channel_mono _ _ hr hc, fun hc => channel_anti _ _ hr hc,
      fun hc => channel_mono _ _ hr hc, fun hc => channel_anti _ _ hr hc⟩

theorem interpolate_color_witness :
    ArcVisualizer.interpolateColor (sampleConfig 10) 0 4 = (sampleConfig 10).colorStart ∧
    ArcVisualizer.interpolateColor (sampleConfig 10) 3 4 = (sampleConfig 10).colorEnd ∧
    (ArcVisualizer.interpolateColor (sampleConfig 10) 1 4).1 ≤
      (ArcVisualizer.interpolateColor (sampleConfig 10) 2 4).1 ∧
    (ArcVisualizer.interpolateColor (sampleConfig 10) 2 4).2.1 ≤
      (ArcVisualizer.interpolateColor (sampleConfig 10) 1 4).2.1 :=
  ⟨(interpolate_color_spec (sampleConfig 10) 4).1 (by decide),
   (interpolate_color_spec (sampleConfig 10) 4).2.1 (by decide),
   ((interpolate_color_spec (sampleConfig 10) 4).2.2.1 1 2
      (by decide) (by decide) (by decide)).1 (by decide),
   ((interpolate_color_spec (sampleConfig 10) 4).2.2.1 1 2
      (by decide) (by decide) (by decide)).2.2.2.1 (by decide)⟩

/-- Claim C1: after generating the sequence to length `n+1` (for `n ≥ 1`),
the first term is 0 and the `n`-th term equals `sequence[n-1] - n` exactly
when that candidate is strictly positive and not present among the earlier
terms `sequence[0..n-1]`, and `sequence[n-1] + n` otherwise; the `n`-th call
of `generateNext` uses step `n`. -/
theorem recaman_selection_rule (n : Nat) (hn : 1 ≤ n) :
    (recamanUpTo (n + 1)).length = n + 1 ∧
    (recamanUpTo (n + 1)).getD 0 0 = 0 ∧
    (recamanUpTo (n + 1)).getD n 0 =
      (if 0 < (recamanUpTo (n + 1)).getD (n - 1) 0 - ((n : Nat) : Int) ∧
          (recamanUpTo (n + 1)).getD (n - 1) 0 - ((n : Nat) : Int) ∉
            (recamanUpTo (n + 1)).take n
        then (recamanUpTo (n + 1)).getD (n - 1) 0 - ((n : Nat) : Int)
        else (recamanUpTo (n + 1)).getD (n - 1) 0 + ((n : Nat) : Int)) := by
  obtain ⟨m, rfl⟩ : ∃ m, n = m + 1 := ⟨n - 1, by omega⟩
  have hup : recamanUpTo (m + 1 + 1) = (recamanSteps (m + 1)).sequence := by
    unfold recamanUpTo
    rw [generateTerms_init (m + 1)]
  have hstep : recamanSteps (m + 1) = recamanStep (recamanSteps m) := by
    unfold recamanSteps
    rw [Function.iterate_succ_apply']
  set t := recamanSteps m with hts
  have hg : t.Good := good_steps m
  have hlen : t.sequence.length = m + 1 := recamanSteps_length m
  have hne : t.sequence ≠ [] := List.length_pos.mp (by omega)
  have hseq : recamanUpTo (m + 1 + 1) = t.sequence ++ [t.nextValue] := by
    rw [hup, hstep]
    rfl
  refine ⟨?_, ?_, ?_⟩
  · rw [hseq]
    simp [hlen]
  · obtain ⟨tt, htt⟩ := good_cons t hg
    rw [hseq, htt]
    simp
  · have hgetn : (recamanUpTo (m + 1 + 1)).getD (m + 1) 0 = t.nextValue := by
      rw [hseq, List.getD_eq_getElem?_getD,
        List.getElem?_append_right (by omega : t.sequence.length ≤ m + 1)]
      simp [hlen]
    have hgetm : (recamanUpTo (m + 1 + 1)).getD (m + 1 - 1) 0 =
        t.sequence.getLastD 0 := by
      have h1 : m + 1 - 1 = m := rfl
      rw [hseq, h1, List.getD_eq_getElem?_getD,
        List.getElem?_append_left (by omega : m < t.sequence.length),
        ← List.getD_eq_getElem?_getD]
      have h2 := getLastD_eq_getD t.sequence 0 0 hne
      rw [hlen] at h2
      simpa using h2.symm
    have htake : (recamanUpTo (m + 1 + 1)).take (m + 1) = t.sequence := by
      rw [hseq, ← hlen, List.take_left]
    rw [hgetn, hgetm, htake]
    have hcs : t.currentStep = ((m + 1 : Nat) : Int) := by
      rw [hg.1, hlen]
    show (if t.sequence.getLastD 0 - t.currentStep > 0 ∧
        t.sequence.getLastD 0 - t.currentStep ∉ t.seen
      then t.sequence.getLastD 0 - t.currentStep
      else t.sequence.getLastD 0 + t.currentStep) = _
    rw [hcs, hg.2.1]
    simp only [List.mem_toFinset, gt_iff_lt]

theorem recaman_selection_rule_witness :
    1 ≤ 3 ∧
    ((recamanUpTo (3 + 1)).length = 3 + 1 ∧
     (recamanUpTo (3 + 1)).getD 0 0 = 0 ∧
     (recamanUpTo (3 + 1)).getD 3 0 =
       (if 0 < (recamanUpTo (3 + 1)).getD (3 - 1) 0 - ((3 : Nat) : Int) ∧
           (recamanUpTo (3 + 1)).getD (3 - 1) 0 - ((3 : Nat) : Int) ∉
             (recamanUpTo (3 + 1)).take 3
         then (recamanUpTo (3 + 1)).getD (3 - 1) 0 - ((3 : Nat) : Int)
         else (recamanUpTo (3 + 1)).getD (3 - 1) 0 + ((3 : Nat) : Int))) :=
  ⟨by decide, recaman_selection_rule 3 (by decide)⟩

theorem getD_map_range {α : Type} (n i : Nat) (hi : i < n) (f : Nat → α) (d : α) :
    ((List.range n).map f).getD i d = f i := by
  rw [List.getD_eq_getElem?_getD, List.getElem?_map, List.getElem?_range hi]
  rfl

theorem arcPoints_eq_map (cfg : Config) (startVal endVal arcIndex : Int)
    (scale offsetX offsetY : ℝ) (h : startVal ≠ endVal) :
    ArcVisualizer.arcPoints cfg startVal endVal arcIndex scale offsetX offsetY =
      (List.range (cfg.segments + 1)).map (fun (i : Nat) =>
        (offsetX + (((startVal : ℝ) + (endVal : ℝ)) / 2) * scale +
           (|(endVal : ℝ) - (startVal : ℝ)| / 2) * scale *
             Real.cos (if arcIndex % 2 = 0
               then Real.pi * (i : ℝ) / (cfg.segments : ℝ)
               else -(Real.pi * (i : ℝ) / (cfg.segments : ℝ))),
         offsetY + (|(endVal : ℝ) - (startVal : ℝ)| / 2) * scale *
             Real.sin (if arcIndex % 2 = 0
               then Real.pi * (i : ℝ) / (cfg.segments : ℝ)
               else -(Real.pi * (i : ℝ) / (cfg.segments : ℝ))))) := by
  unfold ArcVisualizer.arcPoints
  rw [if_neg h]
  by_cases hp : arcIndex % 2 = 0 <;> simp [hp]

/-- Claim C5: with `segments ≥ 2`, equal endpoints give an empty point list and
no draw call; distinct endpoints give exactly `segments + 1` points sampled at
angles `π·i/segments` for even `arcIndex` and `-π·i/segments` for odd
`arcIndex`, so the x-coordinates agree and the y-offsets from the center line
are exactly negated between even and odd indices. -/
theorem arc_points_spec (cfg : Config) (startVal endVal j k totalArcs : Int)
    (scale offsetX offsetY : ℝ) (hseg : 2 ≤ cfg.segments)
    (hj : j % 2 = 0) (hk : k % 2 ≠ 0) :
    (startVal = endVal →
      ArcVisualizer.arcPoints cfg startVal endVal j scale offsetX offsetY = [] ∧
      ArcVisualizer.drawArc cfg startVal endVal j totalArcs scale offsetX offsetY =
        none) ∧
    (startVal ≠ endVal →
      (ArcVisualizer.arcPoints cfg startVal endVal j scale offsetX offsetY).length =
        cfg.segments + 1 ∧
      (ArcVisualizer.arcPoints cfg startVal endVal k scale offsetX offsetY).length =
        cfg.segments + 1 ∧
      (∀ i, i ≤ cfg.segments →
        (ArcVisualizer.arcPoints cfg startVal endVal j scale offsetX offsetY).getD i
            (0, 0) =
          (offsetX + (((startVal : ℝ) + (endVal : ℝ)) / 2) * scale +
             (|(endVal : ℝ) - (startVal : ℝ)| / 2) * scale *
               Real.cos (Real.pi * (i : ℝ) / (cfg.segments : ℝ)),
           offsetY + (|(endVal : ℝ) - (startVal : ℝ)| / 2) * scale *
               Real.sin (Real.pi * (i : ℝ) / (cfg.segments : ℝ))) ∧
        (ArcVisualizer.arcPoints cfg startVal endVal k scale offsetX offsetY).getD i
            (0, 0) =
          (offsetX + (((startVal : ℝ) + (endVal : ℝ)) / 2) * scale +
             (|(endVal : ℝ) - (startVal : ℝ)| / 2) * scale *
               Real.cos (-(Real.pi * (i : ℝ) / (cfg.segments : ℝ))),
           offsetY + (|(endVal : ℝ) - (startVal : ℝ)| / 2) * scale *
               Real.sin (-(Real.pi * (i : ℝ) / (cfg.segments : ℝ)))) ∧
        ((ArcVisualizer.arcPoints cfg startVal endVal j scale offsetX offsetY).getD i
            (0, 0)).1 =
          ((ArcVisualizer.arcPoints cfg startVal endVal k scale offsetX offsetY).getD i
            (0, 0)).1 ∧
        ((ArcVisualizer.arcPoints cfg startVal endVal j scale offsetX offsetY).getD i
              (0, 0)).2 - offsetY =
          -(((ArcVisualizer.arcPoints cfg startVal endVal k scale offsetX offsetY).getD i
              (0, 0)).2 - offsetY))) := by
  constructor
  · intro he
    constructor
    · unfold ArcVisualizer.arcPoints
      rw [if_pos he]
    · unfold ArcVisualizer.drawArc
      rw [if_pos he]
  · intro hne
    have hmapj := arcPoints_eq_map cfg startVal endVal j scale offsetX offsetY hne
    have hmapk := arcPoints_eq_map cfg startVal endVal k scale offsetX offsetY hne
    rw [hmapj, hmapk]
    refine ⟨by simp, by simp, ?_⟩
    intro i hi
    have hilt : i < cfg.segments + 1 := by omega
    rw [getD_map_range _ _ hilt, getD_map_range _ _ hilt]
    dsimp only
    rw [if_pos hj, if_neg hk]
    refine ⟨rfl, rfl, ?_, ?_⟩
    · show offsetX + _ + _ * Real.cos _ = offsetX + _ + _ * Real.cos _
      rw [Real.cos_neg]
    · show offsetY + _ * Real.sin _ - offsetY =
        -(offsetY + _ * Real.sin (-(_ : ℝ)) - offsetY)
      rw [Real.sin_neg]
      ring

theorem arc_points_witness :
    2 ≤ (sampleConfig 10).segments ∧ (0 : Int) % 2 = 0 ∧ (1 : Int) % 2 ≠ 0 ∧
    (ArcVisualizer.arcPoints (sampleConfig 10) 0 2 0 1 0 0).length =
      (sampleConfig 10).segments + 1 :=
  ⟨by decide, by decide, by decide,
   ((arc_points_spec (sampleConfig 10) 0 2 0 1 2 1 0 0
      (by decide) (by decide) (by decide)).2 (by decide)).1⟩
